import Mathlib

/-!
Shallow embedding of `packages/tailwindcss/src/compile.ts`: the candidate
compilation core of the utility-class-to-stylesheet engine.

TypeScript mutation is modelled by explicit state passing: a function that
mutates a rule in place and returns `null | void` becomes a Lean function
returning `Option Rule` (with `none` for the `null` "inapplicable" sentinel
and `some` carrying the mutated rule).  JavaScript `BigInt` values used for
the variant bit pattern are nonnegative here (they are bitwise-ors of
left-shifted ones), so they are modelled by `Nat`; the comparator's
`Number(aBigInt - zBigInt)` conversion preserves the sign, which is all that
`Array.prototype.sort` observes, so it is modelled by exact `Int`
subtraction.

External collaborators (the candidate parser, utility registry, variant
registry, theme/color resolver, selector escaper and the global property
order table) are consumed as opaque fields of a `DesignSystem` record,
mirroring the interfaces in the spec; the compile-core logic itself is
translated line by line from `compile.ts`.
-/

namespace Tailwind

/-- Stylesheet AST node: a declaration (`property: value` with an importance
flag) or a rule (selector plus exclusively owned children), as in `ast.ts`
and the spec's data model. -/
inductive AstNode where
  | decl (property : String) (value : String) (important : Bool)
  | rule (selector : String) (nodes : List AstNode)

/-- A rule node viewed as a record, matching the TypeScript `Rule` interface
(`kind: 'rule'` is implicit in the type). -/
structure Rule where
  selector : String
  nodes : List AstNode

/-- Embed a `Rule` back into the `AstNode` sum. -/
def Rule.toNode (r : Rule) : AstNode := .rule r.selector r.nodes

/-- Test for the rule alternative of `AstNode`. -/
def AstNode.isRule : AstNode → Bool
  | .rule _ _ => true
  | .decl _ _ _ => false

/-- Parsed variant, from `candidate.ts`: an arbitrary selector template, a
named (static/functional) variant identified by its root, or a compound
variant wrapping an inner variant. -/
inductive Variant where
  | arbitrary (selector : String)
  | static (root : String)
  | compound (root : String) (inner : Variant)
deriving DecidableEq

/-- Parsed candidate.  The TypeScript type is a discriminated union on
`kind`; here it is flattened into one record: `kind = "arbitrary"` uses
`property`/`value`/`modifier`, other kinds use `root` (plus the fields the
utility registry inspects). -/
structure Candidate where
  kind : String
  property : String := ""
  value : String := ""
  modifier : Option String := none
  root : String := ""
  important : Bool := false
  variants : List Variant := []

/-- Result of a utility implementation's `compileFn`: JavaScript `null`
(the explicit no-match sentinel), `undefined` (fall through to the next
registered implementation) or a produced node list. -/
inductive UtilityResult where
  | nul
  | undef
  | nodes (ns : List AstNode)

/-- One registered utility implementation: its structural kind and compile
function. -/
structure Utility where
  kind : String
  compileFn : Candidate → UtilityResult

/-- The variant registry's `applyFn` lookup: `variants.get(root)!.applyFn`,
taking the rule to rewrite and the variant being applied, returning the
mutated rule or `none` for inapplicable.  The non-null assertion in the
source makes the lookup total. -/
abbrev Registry := String → Rule → Variant → Option Rule

/-- The design-system handle: the external collaborator interfaces consumed
by `compile.ts` (spec section 6), including the external `escape` helper,
the theme-aware `asColor` resolver and the global property order table. -/
structure DesignSystem where
  parseCandidate : String → Option Candidate
  utilities : String → List Utility
  variantApply : Registry
  variantCompare : Variant → Variant → Int
  usedVariants : List Variant
  asColor : String → String → Option String
  escape : String → String
  propertyOrder : List String

/-- Per-node sorting record kept in the `nodeSorting` map: the property-sort
pair, the variant-priority bit pattern and the original raw candidate
text. -/
structure SortRec where
  properties : List Nat × List Nat
  variants : Nat
  candidate : String

/-- Result record of `compileCandidates`: the sorted node list, the sorting
map (as an insertion-ordered entry list keyed by node) and the sequence of
`onInvalidCandidate` callback arguments in call order. -/
structure CompileOutput where
  astNodes : List Rule
  nodeSorting : List (Rule × SortRec)
  invalid : List String

/-- JavaScript `Array.prototype.indexOf`: first index of a structurally
equal element, `-1` when absent. -/
def tsIndexOf {α : Type} [DecidableEq α] (x : α) : List α → Int
  | [] => -1
  | y :: rest =>
    if y = x then 0
    else
      let r := tsIndexOf x rest
      if r < 0 then -1 else r + 1

/-- Stable sort used to model `Array.prototype.sort` (which ECMAScript
requires to be stable): insertion of one element into an already sorted
list, placing it before the first element it compares `le` to. -/
def stableInsert {α : Type} (le : α → α → Bool) (x : α) : List α → List α
  | [] => [x]
  | y :: ys => if le x y then x :: y :: ys else y :: stableInsert le x ys

/-- Stable insertion sort modelling `Array.prototype.sort(comparator)` with
`le a z` meaning `comparator(a, z) <= 0`. -/
def stableSort {α : Type} (le : α → α → Bool) : List α → List α
  | [] => []
  | x :: xs => stableInsert le x (stableSort le xs)

/-- Modelled from the spec: the `compare` helper from `utils/compare.ts` is
not part of this source tree; the spec describes the final tie-breaker as
"alphabetical comparison of the original raw candidate text - ascending",
modelled as lexicographic comparison of the character sequences. -/
def charListCompare : List Char → List Char → Int
  | [], [] => 0
  | [], _ :: _ => -1
  | _ :: _, [] => 1
  | a :: as, z :: zs =>
    if a.toNat < z.toNat then -1
    else if z.toNat < a.toNat then 1
    else charListCompare as zs

/-- Modelled from the spec: alphabetical comparison of two strings,
negative when the first sorts earlier. -/
def strCompare (a z : String) : Int := charListCompare a.data z.data

/-- The `applyImportant` pass (`compile.ts` lines 241-255): every
declaration becomes important; children of rules are processed recursively
except under the reserved `@at-root` selector, whose subtree is skipped
unmodified. -/
def applyImportant : List AstNode → List AstNode
  | [] => []
  | .decl p v _ :: rest => .decl p v true :: applyImportant rest
  | .rule sel ns :: rest =>
    if sel = "@at-root" then .rule sel ns :: applyImportant rest
    else .rule sel (applyImportant ns) :: applyImportant rest

/-- Modelled from the spec: the generic `walk` helper lives in `ast.ts`,
which is not part of this source tree.  Per the spec (section 4.2 step 4)
the walk over the placeholder subtree finds the first rule node with no
children, splices the original rule's children into that slot, and stops
descending once the slot is filled.  Returns the rewritten forest and
whether the slot was filled. -/
def spliceEmptySlot (repl : List AstNode) : List AstNode → List AstNode × Bool
  | [] => ([], false)
  | .decl p v i :: rest =>
    let r := spliceEmptySlot repl rest
    (.decl p v i :: r.1, r.2)
  | .rule sel ns :: rest =>
    if ns.isEmpty then (.rule sel repl :: rest, true)
    else
      let inner := spliceEmptySlot repl ns
      if inner.2 then (.rule sel inner.1 :: rest, true)
      else
        let r := spliceEmptySlot repl rest
        (.rule sel inner.1 :: r.1, r.2)

/-- The compound-variant child loop (`compile.ts` lines 179-191): every
immediate child of the populated placeholder must be a rule, and the
compound's own `applyFn` is applied to each in order; any declaration child
or inapplicable `applyFn` fails the whole application. -/
def applyChildren (reg : Registry) (root : String) (v : Variant) :
    List AstNode → Option (List AstNode)
  | [] => some []
  | .decl _ _ _ :: _ => none
  | .rule sel ns :: rest => do
    let r ← reg root ⟨sel, ns⟩ v
    let rest2 ← applyChildren reg root v rest
    return r.toNode :: rest2

/-- The variant application engine `applyVariant` (`compile.ts` lines
148-209).  Arbitrary variants wrap the children in a new rule; compound
variants apply the inner variant to an isolated `@slot` placeholder, run
the compound's `applyFn` over the placeholder's rule children, splice the
original children into the first empty slot and adopt the placeholder's
children; all other variants invoke the registry `applyFn` directly. -/
def applyVariant (reg : Registry) : Rule → Variant → Option Rule
  | node, .arbitrary sel => some ⟨node.selector, [.rule sel node.nodes]⟩
  | node, .static root => reg root node (.static root)
  | node, .compound root inner => do
    let isolated ← applyVariant reg ⟨"@slot", []⟩ inner
    let children ← applyChildren reg root (.compound root inner) isolated.nodes
    return ⟨node.selector, (spliceEmptySlot node.nodes children).1⟩

/-- Size measure for the breadth-first queue termination argument. -/
def astSizeList : List AstNode → Nat
  | [] => 0
  | .decl _ _ _ :: rest => 1 + astSizeList rest
  | .rule _ ns :: rest => 1 + astSizeList ns + astSizeList rest

/-- Bump one key of the insertion-ordered count map, mirroring
`propertySort.set(idx, (propertySort.get(idx) ?? 0) + 1)` on a JavaScript
`Map`. -/
def mapBump : List (Nat × Nat) → Nat → List (Nat × Nat)
  | [], k => [(k, 1)]
  | (k2, v) :: rest, k =>
    if k2 = k then (k2, v + 1) :: rest else (k2, v) :: mapBump rest k

/-- The breadth-first property-sort queue loop (`compile.ts` lines
262-286): shift a node; a `--tw-sort` declaration whose value is in the
order table records that index and breaks; other declarations found in the
table bump their index; rule children are pushed unless under `@at-root`. -/
def gpsLoop (order : List String) : List AstNode → List (Nat × Nat) → List (Nat × Nat)
  | [], m => m
  | .decl p v _ :: q, m =>
    if p = "--tw-sort" ∧ ¬tsIndexOf v order < 0 then
      mapBump m (tsIndexOf v order).toNat
    else
      let m2 := if ¬tsIndexOf p order < 0 then mapBump m (tsIndexOf p order).toNat else m
      gpsLoop order q m2
  | .rule sel ns :: q, m =>
    if sel = "@at-root" then gpsLoop order q m
    else gpsLoop order (q ++ ns) m
termination_by q _ => astSizeList q
decreasing_by
  all_goals
    have happ : ∀ a b : List AstNode, astSizeList (a ++ b) = astSizeList a + astSizeList b := by
      intro a b
      induction a with
      | nil => simp [astSizeList]
      | cons x rest ih =>
        cases x with
        | decl p v i => simp [astSizeList, ih]; omega
        | rule sel ns => simp [astSizeList, ih]; omega
    simp [astSizeList, happ]
  all_goals omega

/-- `getPropertySort` (`compile.ts` lines 257-294): run the queue loop,
sort the collected `(index, count)` entries by index ascending, and return
the parallel index and count sequences. -/
def getPropertySort (order : List String) (nodes : List AstNode) : List Nat × List Nat :=
  let sorted := stableSort (fun a z => decide (a.1 ≤ z.1)) (gpsLoop order nodes [])
  (sorted.map (fun e => e.1), sorted.map (fun e => e.2))

/-- The utility search loop of `compileBaseUtility` (`compile.ts` lines
228-236), already reversed to most-recently-registered first: skip kind
mismatches, stop with `none` on the explicit `null` sentinel, return the
first produced node list, fall through on `undefined`. -/
def utilityLoop (c : Candidate) : List Utility → Option (List AstNode)
  | [] => none
  | u :: rest =>
    if c.kind ≠ u.kind then utilityLoop c rest
    else
      match u.compileFn c with
      | .nul => none
      | .undef => utilityLoop c rest
      | .nodes ns => some ns

/-- `compileBaseUtility` (`compile.ts` lines 211-239).  Arbitrary-property
candidates resolve through the color/theme function when a modifier is
present (`none` models both the `null` and `undefined` falsy returns, which
the caller treats identically); named candidates search the registered
implementations most-recently-registered first. -/
def compileBaseUtility (ds : DesignSystem) (c : Candidate) : Option (List AstNode) :=
  if c.kind = "arbitrary" then
    let value : Option String :=
      match c.modifier with
      | some m => ds.asColor c.value m
      | none => some c.value
    match value with
    | none => none
    | some v => some [.decl c.property v false]
  else
    utilityLoop c (ds.utilities c.root).reverse

/-- `compileAstNodes` (`compile.ts` lines 113-146): parse, resolve base
nodes, compute the property sort before importance and variants, apply
`!important` when requested, wrap in the escaped class selector, then apply
each variant in order, failing the candidate if any is inapplicable. -/
def compileAstNodes (ds : DesignSystem) (raw : String) : Option (Rule × (List Nat × List Nat)) := do
  let c ← ds.parseCandidate raw
  let nodes ← compileBaseUtility ds c
  let propertySort := getPropertySort ds.propertyOrder nodes
  let nodes2 := if c.important then applyImportant nodes else nodes
  let start : Rule := ⟨"." ++ ds.escape raw, nodes2⟩
  let node ← c.variants.foldlM (fun n v => applyVariant ds.variantApply n v) start
  return (node, propertySort)

/-- The comparator's offset-advancing while loop (`compile.ts` lines
80-87), written with an explicit iteration bound for termination.  The
guard requires `aProperties.length < offset`, which is false at the initial
offset `0`, so the loop body never runs; the bound is therefore
irrelevant. -/
def offsetLoop (aP zP : List Nat) : Nat → Nat → Nat
  | 0, offset => offset
  | fuel + 1, offset =>
    if aP.length < offset ∧ zP.length < offset ∧ aP[offset]? = zP[offset]? then
      offsetLoop aP zP fuel (offset + 1)
    else offset

/-- One subtraction with JavaScript `?? Infinity` defaulting and truthiness
(`compile.ts` line 90): `some` carries a sign-faithful truthy delta
(out-of-range operands model the infinities); `none` is the falsy case
(`0`, or the `NaN` produced when both sides are absent). -/
def infDelta : Option Nat → Option Nat → Option Int
  | some a, some z => if (a : Int) - z ≠ 0 then some ((a : Int) - z) else none
  | some _, none => some (-1)
  | none, some _ => some 1
  | none, none => none

/-- The `lowestPropertyDelta` step (`compile.ts` line 90):
`(aProperties[offset] ?? Infinity) - (zProperties[offset] ?? Infinity)`,
falsy results falling through to the next key. -/
def lowestPropertyDelta (aP zP : List Nat) (offset : Nat) : Option Int :=
  infDelta aP[offset]? zP[offset]?

/-- One step of the occurrence-count loop body (`compile.ts` lines 98-101):
`zCounts[i] - aCounts[i]` is returned when truthy; an out-of-range operand
yields `NaN`, which is falsy. -/
def cdStep : Option Nat → Option Nat → Option Int
  | some zc, some ac => if (zc : Int) - ac ≠ 0 then some ((zc : Int) - ac) else none
  | _, _ => none

/-- The occurrence-count loop (`compile.ts` lines 98-101): for each index
below `aProperties.length`, the first truthy `zCounts[i] - aCounts[i]` is
returned. -/
def countsDelta (aC zC : List Nat) : Nat → Nat → Option Int
  | i, n =>
    if _h : i < n then
      match cdStep zC[i]? aC[i]? with
      | some d => some d
      | none => countsDelta aC zC (i + 1) n
    else none
termination_by i n => n - i

/-- The five-key node comparator passed to `astNodes.sort` (`compile.ts`
lines 63-105), sign-faithful: variant bit-pattern difference, lowest
property index at the loop's offset, most distinct properties first,
higher occurrence counts first, then the external alphabetical compare of
the raw candidate texts. -/
def cmpNodes (a z : SortRec) : Int :=
  if (a.variants : Int) - z.variants ≠ 0 then (a.variants : Int) - z.variants
  else
    let aP := a.properties.1
    let aC := a.properties.2
    let zP := z.properties.1
    let zC := z.properties.2
    let offset := offsetLoop aP zP (aP.length + zP.length + 1) 0
    match lowestPropertyDelta aP zP offset with
    | some d => d
    | none =>
      let uniq : Int := (zP.length : Int) - (aP.length : Int)
      if uniq ≠ 0 then uniq
      else
        match countsDelta aC zC 0 aP.length with
        | some d => d
        | none => strCompare a.candidate z.candidate

/-- The variant-order accumulation (`compile.ts` lines 50-53):
`variantOrder |= 1n << BigInt(variants.indexOf(variant))`.  A negative
index makes the BigInt left shift throw a `RangeError`, modelled as the
`Except` error. -/
def computeVariantOrder (svs : List Variant) : Nat → List Variant → Except Unit Nat
  | acc, [] => .ok acc
  | acc, v :: rest =>
    let idx := tsIndexOf v svs
    if idx < 0 then .error ()
    else computeVariantOrder svs (acc ||| (1 <<< idx.toNat)) rest

/-- The parse loop of `compileCandidates` (`compile.ts` lines 23-30),
successful parses in encounter order.  Each `parseCandidate` call yields a
fresh candidate identity, so every successfully parsed raw candidate gets
its own map entry. -/
def parsedPairs (ds : DesignSystem) (raws : List String) : List (Candidate × String) :=
  raws.filterMap (fun raw => (ds.parseCandidate raw).map (fun c => (c, raw)))

/-- The `onInvalidCandidate` calls made by the parse loop, in encounter
order. -/
def parseFailures (ds : DesignSystem) (raws : List String) : List String :=
  raws.filter (fun raw => (ds.parseCandidate raw).isNone)

/-- The sorted used-variant list (`compile.ts` lines 33-35):
`designSystem.getUsedVariants().sort((a, z) => variants.compare(a, z))`. -/
def sortedVariantList (ds : DesignSystem) : List Variant :=
  stableSort (fun a z => decide (ds.variantCompare a z ≤ 0)) ds.usedVariants

/-- The AST-creation loop of `compileCandidates` (`compile.ts` lines
38-61): for each parsed candidate in order, compile it (reporting a failure
to `onInvalidCandidate`), compute its variant bit pattern (which can throw)
and record the node with its sorting entry. -/
def compilePhase (ds : DesignSystem) (svs : List Variant) :
    List (Candidate × String) → Except Unit (List (Rule × SortRec) × List String)
  | [] => .ok ([], [])
  | (c, raw) :: rest =>
    match compileAstNodes ds raw with
    | none =>
      match compilePhase ds svs rest with
      | .error e => .error e
      | .ok (es, inv) => .ok (es, raw :: inv)
    | some (node, ps) =>
      match computeVariantOrder svs 0 c.variants with
      | .error e => .error e
      | .ok vo =>
        match compilePhase ds svs rest with
        | .error e => .error e
        | .ok (es, inv) => .ok ((node, ⟨ps, vo, raw⟩) :: es, inv)

/-- `compileCandidates` (`compile.ts` lines 10-111): parse all candidates,
sort the used variants, compile each parsed candidate into a node plus
sorting record, and stably sort the nodes with the five-key comparator.
The returned record carries the sorted nodes, the insertion-ordered sorting
map and the `onInvalidCandidate` call sequence (parse failures first, then
compile failures). -/
def compileCandidates (ds : DesignSystem) (raws : List String) : Except Unit CompileOutput :=
  match compilePhase ds (sortedVariantList ds) (parsedPairs ds raws) with
  | .error e => .error e
  | .ok (entries, compileInvalid) =>
    let sortedEntries := stableSort (fun a z => decide (cmpNodes a.2 z.2 ≤ 0)) entries
    .ok ⟨sortedEntries.map (fun e => e.1), entries, parseFailures ds raws ++ compileInvalid⟩

/-- Structural form of the occurrence-count comparison: the first position
where the two parallel count lists differ decides, with sign `z - a`.  Used
to reason about `countsDelta` when the lists really are parallel (as
`getPropertySort` guarantees). -/
def listDelta : List Nat → List Nat → Option Int
  | a :: as, z :: zs =>
    if (z : Int) - a ≠ 0 then some ((z : Int) - a) else listDelta as zs
  | _, _ => none

/-- Order on optional property indices with `none` (an index absent past
the end of the sequence) treated as infinitely large. -/
def optLt : Option Nat → Option Nat → Prop
  | some a, some z => a < z
  | some _, none => True
  | none, _ => False

/-- Well-formedness of a sorting record: the property-index and
occurrence-count sequences are parallel.  Every record built by
`getPropertySort` satisfies this. -/
def SortRec.WF (r : SortRec) : Prop :=
  r.properties.1.length = r.properties.2.length

/-- The per-candidate outcome of the AST-creation loop: the node plus
sorting record produced for one parsed `(candidate, raw)` pair, or `none`
when compilation fails or the variant-order computation would throw. -/
def pairEntry (ds : DesignSystem) (svs : List Variant) (p : Candidate × String) :
    Option (Rule × SortRec) :=
  match compileAstNodes ds p.2 with
  | none => none
  | some (node, ps) =>
    match computeVariantOrder svs 0 p.1.variants with
    | .error _ => none
    | .ok vo => some (node, ⟨ps, vo, p.2⟩)

/-- Every declaration reachable without passing through an `@at-root` rule
is marked important. -/
def AllImportantOutside : List AstNode → Prop
  | [] => True
  | .decl _ _ imp :: rest => imp = true ∧ AllImportantOutside rest
  | .rule sel ns :: rest =>
    (sel ≠ "@at-root" → AllImportantOutside ns) ∧ AllImportantOutside rest

/-- Shape relation between a forest and its importance-annotated image:
properties, values, selectors and list structure agree everywhere, and
every `@at-root` subtree in the image is exactly the original subtree. -/
def AtRootPreserved : List AstNode → List AstNode → Prop
  | [], [] => True
  | .decl p v _ :: r1, .decl p2 v2 _ :: r2 =>
    p = p2 ∧ v = v2 ∧ AtRootPreserved r1 r2
  | .rule sel ns :: r1, .rule sel2 ns2 :: r2 =>
    sel = sel2 ∧ (if sel = "@at-root" then ns2 = ns else AtRootPreserved ns ns2) ∧
      AtRootPreserved r1 r2
  | _, _ => False

/-- The per-raw-candidate outcome of the whole pipeline: parse, then
compile, then the variant bit pattern, as one function of the raw text. -/
def rawEntry (ds : DesignSystem) (raw : String) : Option (Rule × SortRec) :=
  (ds.parseCandidate raw).bind (fun c => pairEntry ds (sortedVariantList ds) (c, raw))

/-- Test fixture: a design system with one parseable candidate `"a"` whose
root has no registered utility (so it parses but fails to compile); every
other raw text fails to parse. -/
def dsFour : DesignSystem where
  parseCandidate := fun raw =>
    if raw = "a" then some { kind := "static", root := "nope" } else none
  utilities := fun _ => []
  variantApply := fun _ r _ => some r
  variantCompare := fun _ _ => 0
  usedVariants := []
  asColor := fun _ _ => none
  escape := fun s => s
  propertyOrder := []

/-- Test fixture: a design system with a utility root `"u"` compiling to a
single `color` declaration, one no-op variant root `"hover"`, and two
parseable raw candidates `"u"` and `"hover-u"`. -/
def dsMain : DesignSystem where
  parseCandidate := fun raw =>
    if raw = "u" then some { kind := "static", root := "u" }
    else if raw = "hover-u" then
      some { kind := "static", root := "u", variants := [.static "hover"] }
    else none
  utilities := fun root =>
    if root = "u" then [⟨"static", fun _ => .nodes [.decl "color" "red" false]⟩]
    else []
  variantApply := fun _ r _ => some r
  variantCompare := fun _ _ => 0
  usedVariants := [.static "hover"]
  asColor := fun _ _ => none
  escape := fun s => s
  propertyOrder := ["color"]

/-! Helper lemmas about the stable sort model. -/

theorem stableInsert_perm {α : Type} (le : α → α → Bool) (x : α) (l : List α) :
    (stableInsert le x l).Perm (x :: l) := by
  induction l with
  | nil => simp [stableInsert]
  | cons y ys ih =>
    by_cases h : le x y
    · simp [stableInsert, h]
    · simp only [stableInsert, h, Bool.false_eq_true, if_false]
      exact (ih.cons y).trans (List.Perm.swap x y ys)

theorem stableSort_perm {α : Type} (le : α → α → Bool) (l : List α) :
    (stableSort le l).Perm l := by
  induction l with
  | nil => simp [stableSort]
  | cons x xs ih =>
    exact (stableInsert_perm le x (stableSort le xs)).trans (ih.cons x)

theorem mem_stableInsert {α : Type} (le : α → α → Bool) (x a : α) (l : List α) :
    a ∈ stableInsert le x l ↔ a = x ∨ a ∈ l := by
  have h := (stableInsert_perm le x l).mem_iff (a := a)
  simpa using h

theorem mem_stableSort {α : Type} (le : α → α → Bool) (a : α) (l : List α) :
    a ∈ stableSort le l ↔ a ∈ l :=
  (stableSort_perm le l).mem_iff

theorem pairwise_stableInsert {α : Type} (le : α → α → Bool) (x : α) (l : List α)
    (total : ∀ b ∈ l, le x b = true ∨ le b x = true)
    (trans : ∀ b ∈ l, ∀ c ∈ l, le x b = true → le b c = true → le x c = true)
    (hl : List.Pairwise (fun a b => le a b = true) l) :
    List.Pairwise (fun a b => le a b = true) (stableInsert le x l) := by
  induction l with
  | nil => simp [stableInsert]
  | cons y ys ih =>
    rw [List.pairwise_cons] at hl
    by_cases h : le x y
    · simp only [stableInsert, h, if_true]
      refine List.pairwise_cons.2 ⟨?_, List.pairwise_cons.2 ⟨hl.1, hl.2⟩⟩
      intro b hb
      rcases List.mem_cons.1 hb with hb | hb
      · subst hb; exact h
      · exact trans y (by simp) b (by simp [hb]) h (hl.1 b hb)
    · simp only [stableInsert, h, Bool.false_eq_true, if_false]
      refine List.pairwise_cons.2 ⟨?_, ?_⟩
      · intro b hb
        rcases (mem_stableInsert le x b ys).1 hb with hb | hb
        · subst hb
          rcases total y (by simp) with hy | hy
          · exact absurd hy h
          · exact hy
        · exact hl.1 b hb
      · refine ih ?_ ?_ hl.2
        · intro b hb; exact total b (by simp [hb])
        · intro b hb c hc; exact trans b (by simp [hb]) c (by simp [hc])

theorem pairwise_stableSort {α : Type} (le : α → α → Bool) (l : List α)
    (total : ∀ a ∈ l, ∀ b ∈ l, le a b = true ∨ le b a = true)
    (trans : ∀ a ∈ l, ∀ b ∈ l, ∀ c ∈ l, le a b = true → le b c = true → le a c = true) :
    List.Pairwise (fun a b => le a b = true) (stableSort le l) := by
  induction l with
  | nil => simp [stableSort]
  | cons x xs ih =>
    simp only [stableSort]
    have hmem : ∀ b ∈ stableSort le xs, b ∈ xs := fun b hb => (mem_stableSort le b xs).1 hb
    refine pairwise_stableInsert le x (stableSort le xs) ?_ ?_ ?_
    · intro b hb
      exact total x (by simp) b (by simp [hmem b hb])
    · intro b hb c hc
      exact trans x (by simp) b (by simp [hmem b hb]) c (by simp [hmem c hc])
    · refine ih ?_ ?_
      · intro a ha b hb; exact total a (by simp [ha]) b (by simp [hb])
      · intro a ha b hb c hc
        exact trans a (by simp [ha]) b (by simp [hb]) c (by simp [hc])

/-- Two sorted lists that are permutations of each other are equal, given
antisymmetry of the ordering on their members.  This is the engine behind
order-insensitivity of the final output. -/
theorem eq_of_perm_of_pairwise_local {α : Type} (le : α → α → Bool) :
    ∀ (l1 l2 : List α), l1.Perm l2 →
    List.Pairwise (fun a b => le a b = true) l1 →
    List.Pairwise (fun a b => le a b = true) l2 →
    (∀ x ∈ l1, ∀ y ∈ l2, le x y = true → le y x = true → x = y) →
    l1 = l2
  | [], l2, h, _, _, _ => by simpa using h.symm.eq_nil
  | x :: xs, l2, h, s1, s2, anti => by
    match l2, h with
    | [], h => exact absurd h.eq_nil (by simp)
    | y :: ys, h =>
      rw [List.pairwise_cons] at s1 s2
      have hxy : x = y := by
        have hx2 : x ∈ y :: ys := h.mem_iff.1 (by simp)
        have hy1 : y ∈ x :: xs := h.mem_iff.2 (by simp)
        rcases List.mem_cons.1 hx2 with hc | hc
        · exact hc
        rcases List.mem_cons.1 hy1 with hc2 | hc2
        · exact hc2.symm
        exact anti x (by simp) y (by simp) (s1.1 y hc2) (s2.1 x hc)
      subst hxy
      have htail : xs = ys := by
        refine eq_of_perm_of_pairwise_local le xs ys (h.cons_inv) s1.2 s2.2 ?_
        intro a ha b hb
        exact anti a (by simp [ha]) b (by simp [hb])
      rw [htail]

/-! Helper lemmas about `tsIndexOf` and the modelled string compare. -/

theorem tsIndexOf_nonneg {α : Type} [DecidableEq α] (x : α) (l : List α) (h : x ∈ l) :
    0 ≤ tsIndexOf x l := by
  induction l with
  | nil => simp at h
  | cons y ys ih =>
    by_cases hy : y = x
    · simp [tsIndexOf, hy]
    · have hx : x ∈ ys := by
        rcases List.mem_cons.1 h with hc | hc
        · exact absurd hc.symm hy
        · exact hc
      have := ih hx
      simp only [tsIndexOf, hy, if_false]
      split <;> omega

theorem charListCompare_self (a : List Char) : charListCompare a a = 0 := by
  induction a with
  | nil => rfl
  | cons c cs ih => simp [charListCompare, ih]

theorem charListCompare_neg (a z : List Char) :
    charListCompare z a = -charListCompare a z := by
  induction a generalizing z with
  | nil => cases z <;> simp [charListCompare]
  | cons c cs ih =>
    cases z with
    | nil => simp [charListCompare]
    | cons d ds =>
      by_cases h1 : c.toNat < d.toNat
      · have h2 : ¬d.toNat < c.toNat := by omega
        simp [charListCompare, h1, h2]
      · by_cases h2 : d.toNat < c.toNat
        · simp [charListCompare, h1, h2]
        · simp [charListCompare, h1, h2, ih]

theorem charListCompare_eq_zero (a z : List Char) (h : charListCompare a z = 0) :
    a = z := by
  induction a generalizing z with
  | nil => cases z with
    | nil => rfl
    | cons d ds => simp [charListCompare] at h
  | cons c cs ih =>
    cases z with
    | nil => simp [charListCompare] at h
    | cons d ds =>
      by_cases h1 : c.toNat < d.toNat
      · simp [charListCompare, h1] at h
      · by_cases h2 : d.toNat < c.toNat
        · simp [charListCompare, h1, h2] at h
        · have hcd : c = d := by
            have htn : c.toNat = d.toNat := by omega
            exact Char.eq_of_val_eq (UInt32.ext htn)
          simp [charListCompare, h1, h2] at h
          rw [hcd, ih ds h]

theorem charListCompare_trans (a b c : List Char)
    (h1 : charListCompare a b ≤ 0) (h2 : charListCompare b c ≤ 0) :
    charListCompare a c ≤ 0 := by
  induction a generalizing b c with
  | nil => cases c <;> simp [charListCompare]
  | cons x xs ih =>
    cases b with
    | nil => simp [charListCompare] at h1
    | cons y ys =>
      cases c with
      | nil => simp [charListCompare] at h2
      | cons z zs =>
        by_cases hxy : x.toNat < y.toNat
        · by_cases hyz : y.toNat < z.toNat
          · have : x.toNat < z.toNat := by omega
            simp [charListCompare, this]
          · by_cases hzy : z.toNat < y.toNat
            · simp [charListCompare, hyz, hzy] at h2
            · have hy : y.toNat = z.toNat := by omega
              have : x.toNat < z.toNat := by omega
              simp [charListCompare, this]
        · by_cases hyx : y.toNat < x.toNat
          · simp [charListCompare, hxy, hyx] at h1
          · have hxy2 : x.toNat = y.toNat := by omega
            by_cases hyz : y.toNat < z.toNat
            · have : x.toNat < z.toNat := by omega
              simp [charListCompare, this]
            · by_cases hzy : z.toNat < y.toNat
              · simp [charListCompare, hyz, hzy] at h2
              · have hxz : ¬x.toNat < z.toNat := by omega
                have hzx : ¬z.toNat < x.toNat := by omega
                simp only [charListCompare, hxy, hyx, if_false] at h1
                simp only [charListCompare, hyz, hzy, if_false] at h2
                simp only [charListCompare, hxz, hzx, if_false]
                exact ih ys zs h1 h2

theorem strCompare_self (a : String) : strCompare a a = 0 :=
  charListCompare_self a.data

theorem strCompare_neg (a z : String) : strCompare z a = -strCompare a z :=
  charListCompare_neg a.data z.data

theorem strCompare_eq_zero (a z : String) (h : strCompare a z = 0) : a = z :=
  String.ext (charListCompare_eq_zero a.data z.data h)

theorem strCompare_trans (a b c : String)
    (h1 : strCompare a b ≤ 0) (h2 : strCompare b c ≤ 0) : strCompare a c ≤ 0 :=
  charListCompare_trans a.data b.data c.data h1 h2

/-! Lemmas about the five-key comparator. -/

theorem offsetLoop_start_zero (aP zP : List Nat) (fuel : Nat) :
    offsetLoop aP zP fuel 0 = 0 := by
  cases fuel with
  | zero => rfl
  | succ f => simp [offsetLoop]

theorem infDelta_some_ne (x y : Option Nat) (d : Int)
    (h : infDelta x y = some d) : d ≠ 0 := by
  cases x with
  | some a =>
    cases y with
    | some z =>
      by_cases hd : (a : Int) - z ≠ 0
      · simp [infDelta, hd] at h; omega
      · have hd0 : (a : Int) - z = 0 := by omega
        simp [infDelta, hd0] at h
    | none => simp [infDelta] at h; omega
  | none =>
    cases y with
    | some z => simp [infDelta] at h; omega
    | none => simp [infDelta] at h

theorem infDelta_neg (x y : Option Nat) :
    infDelta y x = (infDelta x y).map (fun d => -d) := by
  cases x with
  | some a =>
    cases y with
    | some z =>
      by_cases hd : (a : Int) - z ≠ 0
      · have hd2 : (z : Int) - a ≠ 0 := by omega
        simp [infDelta, hd, hd2]
      · have hd0 : (a : Int) - z = 0 := by omega
        have hz0 : (z : Int) - a = 0 := by omega
        simp [infDelta, hd0, hz0]
    | none => simp [infDelta]
  | none =>
    cases y with
    | some z => simp [infDelta]
    | none => simp [infDelta]

theorem lowestPropertyDelta_some_ne (aP zP : List Nat) (o : Nat) (d : Int)
    (h : lowestPropertyDelta aP zP o = some d) : d ≠ 0 :=
  infDelta_some_ne aP[o]? zP[o]? d h

theorem lowestPropertyDelta_neg (aP zP : List Nat) (o : Nat) :
    lowestPropertyDelta zP aP o = (lowestPropertyDelta aP zP o).map (fun d => -d) :=
  infDelta_neg aP[o]? zP[o]?

theorem cdStep_some_ne (x y : Option Nat) (d : Int)
    (h : cdStep x y = some d) : d ≠ 0 := by
  cases x with
  | some zc =>
    cases y with
    | some ac =>
      by_cases hd : (zc : Int) - ac ≠ 0
      · simp [cdStep, hd] at h; omega
      · have hd0 : (zc : Int) - ac = 0 := by omega
        simp [cdStep, hd0] at h
    | none => simp [cdStep] at h
  | none => simp [cdStep] at h

theorem cdStep_neg (x y : Option Nat) :
    cdStep y x = (cdStep x y).map (fun d => -d) := by
  cases x with
  | some zc =>
    cases y with
    | some ac =>
      by_cases hd : (zc : Int) - ac ≠ 0
      · have hd2 : (ac : Int) - zc ≠ 0 := by omega
        simp [cdStep, hd, hd2]
      · have hd0 : (zc : Int) - ac = 0 := by omega
        have ha0 : (ac : Int) - zc = 0 := by omega
        simp [cdStep, hd0, ha0]
    | none => simp [cdStep]
  | none => cases y <;> simp [cdStep]

theorem countsDelta_some_ne (aC zC : List Nat) (i n : Nat) (d : Int)
    (h : countsDelta aC zC i n = some d) : d ≠ 0 := by
  have main : ∀ k j, n - j ≤ k → countsDelta aC zC j n = some d → d ≠ 0 := by
    intro k
    induction k with
    | zero =>
      intro j hjk h2
      have hj : ¬j < n := by omega
      rw [countsDelta] at h2
      simp [hj] at h2
    | succ k ih =>
      intro j hjk h2
      by_cases hj : j < n
      · rw [countsDelta] at h2
        simp only [hj, dif_pos] at h2
        cases hs : cdStep zC[j]? aC[j]? with
        | some d0 =>
          rw [hs] at h2
          simp at h2
          exact h2 ▸ cdStep_some_ne zC[j]? aC[j]? d0 hs
        | none =>
          rw [hs] at h2
          simp at h2
          exact ih (j + 1) (by omega) h2
      · rw [countsDelta] at h2
        simp [hj] at h2
  exact main (n - i) i (by omega) h

theorem countsDelta_neg (aC zC : List Nat) (i n : Nat) :
    countsDelta zC aC i n = (countsDelta aC zC i n).map (fun d => -d) := by
  have main : ∀ k j, n - j ≤ k →
      countsDelta zC aC j n = (countsDelta aC zC j n).map (fun d => -d) := by
    intro k
    induction k with
    | zero =>
      intro j hjk
      have hj : ¬j < n := by omega
      have hL : countsDelta zC aC j n = none := by rw [countsDelta]; simp [hj]
      have hR : countsDelta aC zC j n = none := by rw [countsDelta]; simp [hj]
      rw [hL, hR]
      rfl
    | succ k ih =>
      intro j hjk
      by_cases hj : j < n
      · have hL : countsDelta zC aC j n =
            match cdStep aC[j]? zC[j]? with
            | some d => some d
            | none => countsDelta zC aC (j + 1) n := by
          rw [countsDelta]; simp [hj]
        have hR : countsDelta aC zC j n =
            match cdStep zC[j]? aC[j]? with
            | some d => some d
            | none => countsDelta aC zC (j + 1) n := by
          rw [countsDelta]; simp [hj]
        rw [hL, hR, cdStep_neg aC[j]? zC[j]?]
        cases hs : cdStep aC[j]? zC[j]? with
        | some d0 => simp
        | none =>
          simp
          exact ih (j + 1) (by omega)
      · have hL : countsDelta zC aC j n = none := by rw [countsDelta]; simp [hj]
        have hR : countsDelta aC zC j n = none := by rw [countsDelta]; simp [hj]
        rw [hL, hR]
        rfl
  exact main (n - i) i (by omega)

theorem countsDelta_eq_listDelta (aC zC : List Nat) (n : Nat)
    (ha : aC.length = n) (hz : zC.length = n) :
    ∀ i, countsDelta aC zC i n = listDelta (aC.drop i) (zC.drop i) := by
  have main : ∀ k j, n - j ≤ k →
      countsDelta aC zC j n = listDelta (aC.drop j) (zC.drop j) := by
    intro k
    induction k with
    | zero =>
      intro j hjk
      have hj : ¬j < n := by omega
      have hL : countsDelta aC zC j n = none := by rw [countsDelta]; simp [hj]
      have hda : aC.drop j = [] := List.drop_eq_nil_of_le (by omega)
      have hdz : zC.drop j = [] := List.drop_eq_nil_of_le (by omega)
      rw [hL, hda, hdz]
      rfl
    | succ k ih =>
      intro j hjk
      by_cases hj : j < n
      · have hja : j < aC.length := by omega
        have hjz : j < zC.length := by omega
        have hL : countsDelta aC zC j n =
            match cdStep zC[j]? aC[j]? with
            | some d => some d
            | none => countsDelta aC zC (j + 1) n := by
          rw [countsDelta]; simp [hj]
        rw [hL, List.drop_eq_getElem_cons hja, List.drop_eq_getElem_cons hjz]
        rw [List.getElem?_eq_getElem hja, List.getElem?_eq_getElem hjz]
        rw [listDelta]
        by_cases hd : ((zC[j] : Int)) - aC[j] ≠ 0
        · simp [cdStep, hd]
        · have hd0 : ((zC[j] : Int)) - aC[j] = 0 := by omega
          simp [cdStep, hd0]
          exact ih (j + 1) (by omega)
      · have hj2 : ¬j < n := hj
        have hL : countsDelta aC zC j n = none := by rw [countsDelta]; simp [hj2]
        have hda : aC.drop j = [] := List.drop_eq_nil_of_le (by omega)
        have hdz : zC.drop j = [] := List.drop_eq_nil_of_le (by omega)
        rw [hL, hda, hdz]
        rfl
  intro i
  exact main (n - i) i (by omega)

theorem listDelta_self (l : List Nat) : listDelta l l = none := by
  induction l with
  | nil => rfl
  | cons x xs ih => simp [listDelta, ih]

theorem listDelta_none_iff (a z : List Nat) (h : a.length = z.length) :
    listDelta a z = none ↔ a = z := by
  induction a generalizing z with
  | nil =>
    cases z with
    | nil => simp [listDelta]
    | cons y ys => simp at h
  | cons x xs ih =>
    cases z with
    | nil => simp at h
    | cons y ys =>
      simp only [List.length_cons, Nat.add_right_cancel_iff] at h
      by_cases hd : (y : Int) - x ≠ 0
      · simp [listDelta, hd]
        intro hxy
        omega
      · have hxy : x = y := by omega
        simp [listDelta, hd, hxy, ih ys h]

theorem listDelta_some_ne (a z : List Nat) (d : Int)
    (h : listDelta a z = some d) : d ≠ 0 := by
  induction a generalizing z with
  | nil => cases z <;> simp [listDelta] at h
  | cons x xs ih =>
    cases z with
    | nil => simp [listDelta] at h
    | cons y ys =>
      by_cases hd : (y : Int) - x ≠ 0
      · simp [listDelta, hd] at h; omega
      · simp [listDelta, hd] at h; exact ih ys h

theorem listDelta_trans (a b c : List Nat) (d e : Int)
    (h1 : listDelta a b = some d) (hd : d < 0)
    (h2 : listDelta b c = some e) (he : e < 0) :
    ∃ f, listDelta a c = some f ∧ f < 0 := by
  induction a generalizing b c d e with
  | nil => cases b <;> simp [listDelta] at h1
  | cons x xs ih =>
    cases b with
    | nil => simp [listDelta] at h1
    | cons y ys =>
      cases c with
      | nil => simp [listDelta] at h2
      | cons z zs =>
        simp only [listDelta] at h1 h2
        by_cases hxy : (y : Int) - x ≠ 0
        · rw [if_pos hxy] at h1
          have hd1 : (y : Int) - x = d := Option.some.inj h1
          by_cases hyz : (z : Int) - y ≠ 0
          · rw [if_pos hyz] at h2
            have hd2 : (z : Int) - y = e := Option.some.inj h2
            have hzx : (z : Int) - x ≠ 0 := by omega
            refine ⟨(z : Int) - x, ?_, by omega⟩
            simp [listDelta, hzx]
          · have hzx : (z : Int) - x ≠ 0 := by omega
            refine ⟨(z : Int) - x, ?_, by omega⟩
            simp [listDelta, hzx]
        · rw [if_neg hxy] at h1
          by_cases hyz : (z : Int) - y ≠ 0
          · rw [if_pos hyz] at h2
            have hd2 : (z : Int) - y = e := Option.some.inj h2
            have hzx : (z : Int) - x ≠ 0 := by omega
            refine ⟨(z : Int) - x, ?_, by omega⟩
            simp [listDelta, hzx]
          · rw [if_neg hyz] at h2
            have hzx : (z : Int) - x = 0 := by omega
            obtain ⟨f, hf, hfneg⟩ := ih ys zs d e h1 hd h2 he
            refine ⟨f, ?_, hfneg⟩
            simp [listDelta, hzx, hf]

theorem infDelta_none_iff (x y : Option Nat) : infDelta x y = none ↔ x = y := by
  cases x with
  | some a =>
    cases y with
    | some z =>
      by_cases hd : (a : Int) - z ≠ 0
      · simp [infDelta, hd]
        omega
      · have hd0 : (a : Int) - z = 0 := by omega
        have haz : a = z := by omega
        simp [infDelta, hd0, haz]
    | none => simp [infDelta]
  | none =>
    cases y with
    | some z => simp [infDelta]
    | none => simp [infDelta]

theorem infDelta_neg_iff (x y : Option Nat) :
    (∃ d, infDelta x y = some d ∧ d < 0) ↔ optLt x y := by
  cases x with
  | some a =>
    cases y with
    | some z =>
      by_cases hd : (a : Int) - z ≠ 0
      · simp [infDelta, hd, optLt]
      · have hd0 : (a : Int) - z = 0 := by omega
        have haz : a = z := by omega
        simp [infDelta, hd0, optLt, haz]
    | none => simp [infDelta, optLt]
  | none =>
    cases y with
    | some z => simp [infDelta, optLt]
    | none => simp [infDelta, optLt]

theorem optLt_trans (x y z : Option Nat) (h1 : optLt x y) (h2 : optLt y z) : optLt x z := by
  cases x <;> cases y <;> cases z <;> simp [optLt] at h1 h2 ⊢ <;> omega

theorem cmpNodes_eq (a z : SortRec) :
    cmpNodes a z =
      if (a.variants : Int) - z.variants ≠ 0 then (a.variants : Int) - z.variants
      else
        (lowestPropertyDelta a.properties.1 z.properties.1 0).getD
          (if ((z.properties.1.length : Int) - (a.properties.1.length : Int)) ≠ 0 then
            (z.properties.1.length : Int) - (a.properties.1.length : Int)
          else
            (countsDelta a.properties.2 z.properties.2 0 a.properties.1.length).getD
              (strCompare a.candidate z.candidate)) := by
  by_cases hv : (a.variants : Int) - z.variants ≠ 0
  · simp [cmpNodes, hv]
  · simp only [cmpNodes, offsetLoop_start_zero, hv, if_false, if_neg, not_false_iff]
    cases hld : lowestPropertyDelta a.properties.1 z.properties.1 0 with
    | some d => simp
    | none =>
      simp only [Option.getD_none]
      by_cases hu : ((z.properties.1.length : Int) - (a.properties.1.length : Int)) ≠ 0
      · simp [hu]
      · simp only [hu, if_false, if_neg, not_false_iff]
        cases hcd : countsDelta a.properties.2 z.properties.2 0 a.properties.1.length with
        | some d => simp
        | none => simp

theorem cmpNodes_swap (a z : SortRec) : cmpNodes z a = -cmpNodes a z := by
  rw [cmpNodes_eq a z, cmpNodes_eq z a]
  by_cases hv : (a.variants : Int) - z.variants ≠ 0
  · have hv2 : (z.variants : Int) - a.variants ≠ 0 := by omega
    rw [if_pos hv, if_pos hv2]
    omega
  · have hv2 : ¬((z.variants : Int) - a.variants ≠ 0) := by omega
    rw [if_neg hv, if_neg hv2]
    rw [lowestPropertyDelta_neg]
    cases hld : lowestPropertyDelta a.properties.1 z.properties.1 0 with
    | some d => simp
    | none =>
      simp only [Option.map_none', Option.getD_none]
      by_cases hu : ((z.properties.1.length : Int) - (a.properties.1.length : Int)) ≠ 0
      · have hu2 : ((a.properties.1.length : Int) - (z.properties.1.length : Int)) ≠ 0 := by
          omega
        rw [if_pos hu, if_pos hu2]
        omega
      · have hu2 : ¬((a.properties.1.length : Int) - (z.properties.1.length : Int)) ≠ 0 := by
          omega
        have hlen : z.properties.1.length = a.properties.1.length := by omega
        rw [if_neg hu, if_neg hu2, hlen]
        rw [countsDelta_neg]
        cases hcd : countsDelta a.properties.2 z.properties.2 0 a.properties.1.length with
        | some d => simp
        | none =>
          simp only [Option.map_none', Option.getD_none]
          rw [strCompare_neg]

theorem cmpNodes_total (a z : SortRec) : cmpNodes a z ≤ 0 ∨ cmpNodes z a ≤ 0 := by
  rw [cmpNodes_swap]
  omega

theorem cmpNodes_antisymm_zero (a z : SortRec)
    (h1 : cmpNodes a z ≤ 0) (h2 : cmpNodes z a ≤ 0) : cmpNodes a z = 0 := by
  rw [cmpNodes_swap] at h2
  omega

theorem cmpNodes_zero_candidate (a z : SortRec) (h : cmpNodes a z = 0) :
    a.candidate = z.candidate := by
  rw [cmpNodes_eq] at h
  by_cases hv : (a.variants : Int) - z.variants ≠ 0
  · rw [if_pos hv] at h
    exact absurd h hv
  · rw [if_neg hv] at h
    cases hld : lowestPropertyDelta a.properties.1 z.properties.1 0 with
    | some d =>
      rw [hld] at h
      simp at h
      exact absurd h (lowestPropertyDelta_some_ne _ _ _ _ hld)
    | none =>
      rw [hld] at h
      simp only [Option.getD_none] at h
      by_cases hu : ((z.properties.1.length : Int) - (a.properties.1.length : Int)) ≠ 0
      · rw [if_pos hu] at h
        exact absurd h hu
      · rw [if_neg hu] at h
        cases hcd : countsDelta a.properties.2 z.properties.2 0 a.properties.1.length with
        | some d =>
          rw [hcd] at h
          simp at h
          exact absurd h (countsDelta_some_ne _ _ _ _ _ hcd)
        | none =>
          rw [hcd] at h
          simp only [Option.getD_none] at h
          exact strCompare_eq_zero _ _ h

theorem cmpNodes_le_iff (a z : SortRec) (ha : a.WF) (hz : z.WF) :
    cmpNodes a z ≤ 0 ↔
      (a.variants < z.variants ∨
        (a.variants = z.variants ∧
          (optLt a.properties.1[0]? z.properties.1[0]? ∨
            (a.properties.1[0]? = z.properties.1[0]? ∧
              (z.properties.1.length < a.properties.1.length ∨
                (a.properties.1.length = z.properties.1.length ∧
                  ((∃ d, listDelta a.properties.2 z.properties.2 = some d ∧ d < 0) ∨
                    (a.properties.2 = z.properties.2 ∧
                      strCompare a.candidate z.candidate ≤ 0)))))))) := by
  rw [cmpNodes_eq]
  by_cases hv : (a.variants : Int) - z.variants ≠ 0
  · rw [if_pos hv]
    constructor
    · intro h
      left
      omega
    · intro h
      rcases h with h | ⟨h, -⟩ <;> omega
  · rw [if_neg hv]
    have hveq : a.variants = z.variants := by omega
    have hL : ¬(a.variants < z.variants) := by omega
    cases hld : lowestPropertyDelta a.properties.1 z.properties.1 0 with
    | some d =>
      simp only [Option.getD_some]
      have hdne : d ≠ 0 := lowestPropertyDelta_some_ne _ _ _ _ hld
      constructor
      · intro hle
        refine Or.inr ⟨hveq, Or.inl ?_⟩
        exact (infDelta_neg_iff _ _).1 ⟨d, hld, by omega⟩
      · intro h
        rcases h with h | ⟨-, h2⟩
        · omega
        rcases h2 with hopt | ⟨heq, -⟩
        · obtain ⟨d0, hd0, hneg⟩ := (infDelta_neg_iff _ _).2 hopt
          rw [lowestPropertyDelta] at hld
          rw [hd0] at hld
          have : d0 = d := Option.some.inj hld
          omega
        · have : infDelta a.properties.1[0]? z.properties.1[0]? = none :=
            (infDelta_none_iff _ _).2 heq
          rw [lowestPropertyDelta] at hld
          rw [this] at hld
          exact absurd hld (by simp)
    | none =>
      simp only [Option.getD_none]
      have hE2 : a.properties.1[0]? = z.properties.1[0]? := by
        rw [lowestPropertyDelta] at hld
        exact (infDelta_none_iff _ _).1 hld
      have hnopt : ¬optLt a.properties.1[0]? z.properties.1[0]? := by
        intro hopt
        obtain ⟨d0, hd0, -⟩ := (infDelta_neg_iff _ _).2 hopt
        rw [lowestPropertyDelta] at hld
        rw [hd0] at hld
        exact absurd hld (by simp)
      by_cases hu : ((z.properties.1.length : Int) - (a.properties.1.length : Int)) ≠ 0
      · rw [if_pos hu]
        constructor
        · intro h
          exact Or.inr ⟨hveq, Or.inr ⟨hE2, Or.inl (by omega)⟩⟩
        · intro h
          rcases h with h | ⟨-, h2⟩
          · omega
          rcases h2 with hopt | ⟨-, h3⟩
          · exact absurd hopt hnopt
          rcases h3 with hlen | ⟨hlen, -⟩
          · omega
          · omega
      · rw [if_neg hu]
        have hlen : a.properties.1.length = z.properties.1.length := by omega
        have hnL3 : ¬(z.properties.1.length < a.properties.1.length) := by omega
        have hcl : countsDelta a.properties.2 z.properties.2 0 a.properties.1.length =
            listDelta a.properties.2 z.properties.2 := by
          have h1 : a.properties.2.length = a.properties.1.length := ha.symm
          have h2 : z.properties.2.length = a.properties.1.length := by
            rw [← hz]
            omega
          have := countsDelta_eq_listDelta a.properties.2 z.properties.2
            a.properties.1.length h1 h2 0
          simpa using this
        rw [hcl]
        cases hcd : listDelta a.properties.2 z.properties.2 with
        | some d =>
          simp only [Option.getD_some]
          have hdne : d ≠ 0 := listDelta_some_ne _ _ _ hcd
          have hneq : a.properties.2 ≠ z.properties.2 := by
            intro heq
            rw [heq, listDelta_self] at hcd
            exact absurd hcd (by simp)
          constructor
          · intro hle
            exact Or.inr ⟨hveq, Or.inr ⟨hE2, Or.inr ⟨hlen, Or.inl ⟨d, rfl, by omega⟩⟩⟩⟩
          · intro h
            rcases h with h | ⟨-, h2⟩
            · omega
            rcases h2 with hopt | ⟨-, h3⟩
            · exact absurd hopt hnopt
            rcases h3 with hl3 | ⟨-, h4⟩
            · omega
            rcases h4 with ⟨d0, hd0, hneg⟩ | ⟨heq, -⟩
            · have hdd : d = d0 := Option.some.inj hd0
              omega
            · exact absurd heq hneq
        | none =>
          simp only [Option.getD_none]
          have hwa : a.properties.1.length = a.properties.2.length := ha
          have hwz : z.properties.1.length = z.properties.2.length := hz
          have hceq : a.properties.2 = z.properties.2 := by
            refine (listDelta_none_iff _ _ ?_).1 hcd
            omega
          constructor
          · intro h
            exact Or.inr ⟨hveq, Or.inr ⟨hE2, Or.inr ⟨hlen, Or.inr ⟨hceq, h⟩⟩⟩⟩
          · intro h
            rcases h with h | ⟨-, h2⟩
            · omega
            rcases h2 with hopt | ⟨-, h3⟩
            · exact absurd hopt hnopt
            rcases h3 with hl3 | ⟨-, h4⟩
            · omega
            rcases h4 with ⟨d0, hd0, -⟩ | ⟨-, h5⟩
            · exact absurd hd0 (by simp)
            · exact h5

theorem cmpNodes_trans (a b c : SortRec) (ha : a.WF) (hb : b.WF) (hc : c.WF)
    (h1 : cmpNodes a b ≤ 0) (h2 : cmpNodes b c ≤ 0) : cmpNodes a c ≤ 0 := by
  rw [cmpNodes_le_iff a b ha hb] at h1
  rw [cmpNodes_le_iff b c hb hc] at h2
  rw [cmpNodes_le_iff a c ha hc]
  rcases h1 with h1 | ⟨e1, h1tail⟩
  · rcases h2 with h2 | ⟨e2, -⟩
    · left; omega
    · left; omega
  · rcases h2 with h2 | ⟨e2, h2tail⟩
    · left; omega
    · refine Or.inr ⟨by omega, ?_⟩
      rcases h1tail with l2a | ⟨e2a, h1t3⟩
      · rcases h2tail with l2b | ⟨e2b, -⟩
        · exact Or.inl (optLt_trans _ _ _ l2a l2b)
        · exact Or.inl (e2b ▸ l2a)
      · rcases h2tail with l2b | ⟨e2b, h2t3⟩
        · have hacc := l2b
          rw [← e2a] at hacc
          exact Or.inl hacc
        · refine Or.inr ⟨e2a.trans e2b, ?_⟩
          rcases h1t3 with l3a | ⟨e3a, h1t4⟩
          · rcases h2t3 with l3b | ⟨e3b, -⟩
            · left; omega
            · left; omega
          · rcases h2t3 with l3b | ⟨e3b, h2t4⟩
            · left; omega
            · refine Or.inr ⟨by omega, ?_⟩
              rcases h1t4 with ⟨d, hd, hdneg⟩ | ⟨e4a, h1t5⟩
              · rcases h2t4 with ⟨e, he, heneg⟩ | ⟨e4b, -⟩
                · obtain ⟨f, hf, hfneg⟩ := listDelta_trans _ _ _ d e hd hdneg he heneg
                  exact Or.inl ⟨f, hf, hfneg⟩
                · rw [e4b] at hd
                  exact Or.inl ⟨d, hd, hdneg⟩
              · rcases h2t4 with ⟨e, he, heneg⟩ | ⟨e4b, h2t5⟩
                · rw [← e4a] at he
                  exact Or.inl ⟨e, he, heneg⟩
                · exact Or.inr ⟨e4a.trans e4b, strCompare_trans _ _ _ h1t5 h2t5⟩

/-! Characterization of the batch pipeline. -/

theorem getPropertySort_WF (order : List String) (ns : List AstNode) :
    (getPropertySort order ns).1.length = (getPropertySort order ns).2.length := by
  simp [getPropertySort]

theorem compileAstNodes_propertySort (ds : DesignSystem) (raw : String)
    (node : Rule) (ps : List Nat × List Nat)
    (h : compileAstNodes ds raw = some (node, ps)) :
    ∃ nodes, ps = getPropertySort ds.propertyOrder nodes := by
  unfold compileAstNodes at h
  cases hp : ds.parseCandidate raw with
  | none => rw [hp] at h; simp at h
  | some c =>
    rw [hp] at h
    simp only [Option.bind_some, bind, Option.bind] at h
    cases hb : compileBaseUtility ds c with
    | none => rw [hb] at h; simp at h
    | some nodes =>
      rw [hb] at h
      simp only [] at h
      cases hf : (c.variants.foldlM (fun n v => applyVariant ds.variantApply n v)
          (⟨"." ++ ds.escape raw, if c.important then applyImportant nodes else nodes⟩ : Rule)) with
      | none =>
        rw [hf] at h
        simp at h
      | some nd =>
        rw [hf] at h
        simp at h
        exact ⟨nodes, h.2.symm⟩

theorem pairEntry_WF (ds : DesignSystem) (svs : List Variant) (p : Candidate × String)
    (x : Rule × SortRec) (h : pairEntry ds svs p = some x) : x.2.WF := by
  unfold pairEntry at h
  cases hc : compileAstNodes ds p.2 with
  | none => rw [hc] at h; cases h
  | some r =>
    rw [hc] at h
    cases r with
    | mk node ps =>
      cases hv : computeVariantOrder svs 0 p.1.variants with
      | error e => rw [hv] at h; cases h
      | ok vo =>
        rw [hv] at h
        simp only [Option.some_inj] at h
        obtain ⟨nodes, hps⟩ := compileAstNodes_propertySort ds p.2 node ps hc
        rw [← h]
        show ps.1.length = ps.2.length
        rw [hps]
        exact getPropertySort_WF ds.propertyOrder nodes

theorem pairEntry_candidate (ds : DesignSystem) (svs : List Variant) (p : Candidate × String)
    (x : Rule × SortRec) (h : pairEntry ds svs p = some x) : x.2.candidate = p.2 := by
  unfold pairEntry at h
  cases hc : compileAstNodes ds p.2 with
  | none => rw [hc] at h; cases h
  | some r =>
    rw [hc] at h
    cases r with
    | mk node ps =>
      cases hv : computeVariantOrder svs 0 p.1.variants with
      | error e => rw [hv] at h; cases h
      | ok vo =>
        rw [hv] at h
        simp only [Option.some_inj] at h
        rw [← h]

theorem mem_parsedPairs (ds : DesignSystem) (raws : List String) (p : Candidate × String)
    (h : p ∈ parsedPairs ds raws) : p.2 ∈ raws ∧ ds.parseCandidate p.2 = some p.1 := by
  unfold parsedPairs at h
  obtain ⟨raw, hraw, hmap⟩ := List.mem_filterMap.1 h
  cases hp : ds.parseCandidate raw with
  | none => rw [hp] at hmap; cases hmap
  | some c =>
    rw [hp] at hmap
    simp only [Option.map_some', Option.some_inj] at hmap
    rw [← hmap]
    exact ⟨hraw, hp⟩

theorem entry_antisymm (ds : DesignSystem) (svs : List Variant)
    (raws1 raws2 : List String) (x y : Rule × SortRec)
    (hx : x ∈ (parsedPairs ds raws1).filterMap (pairEntry ds svs))
    (hy : y ∈ (parsedPairs ds raws2).filterMap (pairEntry ds svs))
    (hcmp : cmpNodes x.2 y.2 = 0) : x = y := by
  obtain ⟨p, hp, hpe⟩ := List.mem_filterMap.1 hx
  obtain ⟨q, hq, hqe⟩ := List.mem_filterMap.1 hy
  have hcand : x.2.candidate = y.2.candidate := cmpNodes_zero_candidate _ _ hcmp
  have hpx : x.2.candidate = p.2 := pairEntry_candidate ds svs p x hpe
  have hqy : y.2.candidate = q.2 := pairEntry_candidate ds svs q y hqe
  have hraw : p.2 = q.2 := by rw [← hpx, ← hqy, hcand]
  have hp2 := (mem_parsedPairs ds raws1 p hp).2
  have hq2 := (mem_parsedPairs ds raws2 q hq).2
  rw [hraw] at hp2
  rw [hp2] at hq2
  have hcq : p.1 = q.1 := Option.some.inj hq2
  have hpq : p = q := Prod.ext hcq hraw
  rw [hpq] at hpe
  rw [hpe] at hqe
  exact Option.some.inj hqe

theorem compilePhase_ok_parts (ds : DesignSystem) (svs : List Variant) :
    ∀ (ps : List (Candidate × String)) (es : List (Rule × SortRec)) (inv : List String),
      compilePhase ds svs ps = .ok (es, inv) →
      es = ps.filterMap (pairEntry ds svs) ∧
      inv = (ps.filter (fun p => (compileAstNodes ds p.2).isNone)).map (fun p => p.2)
  | [], es, inv, h => by
    unfold compilePhase at h
    simp only [Except.ok.injEq, Prod.mk.injEq] at h
    simp [← h.1, ← h.2]
  | (c, raw) :: rest, es, inv, h => by
    unfold compilePhase at h
    cases hc : compileAstNodes ds raw with
    | none =>
      rw [hc] at h
      cases hr : compilePhase ds svs rest with
      | error e => rw [hr] at h; cases h
      | ok r =>
        cases r with
        | mk es0 inv0 =>
          rw [hr] at h
          simp only [Except.ok.injEq, Prod.mk.injEq] at h
          obtain ⟨hes, hinv⟩ := h
          obtain ⟨ih1, ih2⟩ := compilePhase_ok_parts ds svs rest es0 inv0 hr
          constructor
          · rw [← hes, ih1, List.filterMap_cons]
            have hpe : pairEntry ds svs (c, raw) = none := by
              unfold pairEntry
              rw [hc]
            rw [hpe]
          · rw [← hinv, ih2, List.filter_cons]
            have hisn : (compileAstNodes ds ((c, raw) : Candidate × String).2).isNone = true := by
              simp [hc]
            simp [hisn]
    | some r =>
      rw [hc] at h
      cases r with
      | mk node ps2 =>
        cases hv : computeVariantOrder svs 0 c.variants with
        | error e => rw [hv] at h; cases h
        | ok vo =>
          rw [hv] at h
          cases hr : compilePhase ds svs rest with
          | error e => rw [hr] at h; cases h
          | ok r2 =>
            cases r2 with
            | mk es0 inv0 =>
              rw [hr] at h
              simp only [Except.ok.injEq, Prod.mk.injEq] at h
              obtain ⟨hes, hinv⟩ := h
              obtain ⟨ih1, ih2⟩ := compilePhase_ok_parts ds svs rest es0 inv0 hr
              constructor
              · rw [← hes, ih1, List.filterMap_cons]
                have hpe : pairEntry ds svs (c, raw) = some (node, ⟨ps2, vo, raw⟩) := by
                  unfold pairEntry
                  rw [hc, hv]
                rw [hpe]
              · rw [← hinv, ih2, List.filter_cons]
                have hisn : ¬((compileAstNodes ds ((c, raw) : Candidate × String).2).isNone = true) := by
                  simp [hc]
                simp [hc]

theorem computeVariantOrder_ok (svs : List Variant) :
    ∀ (vs : List Variant), (∀ v ∈ vs, v ∈ svs) →
      ∀ acc, ∃ n, computeVariantOrder svs acc vs = .ok n
  | [], _, acc => ⟨acc, rfl⟩
  | v :: rest, h, acc => by
    have hv : v ∈ svs := h v (by simp)
    have hnn : 0 ≤ tsIndexOf v svs := tsIndexOf_nonneg v svs hv
    have hlt : ¬tsIndexOf v svs < 0 := by omega
    unfold computeVariantOrder
    simp only [hlt, if_false, if_neg, not_false_iff]
    exact computeVariantOrder_ok svs rest (fun w hw => h w (by simp [hw])) _

theorem compilePhase_ok_of_forall (ds : DesignSystem) (svs : List Variant) :
    ∀ (ps : List (Candidate × String)),
      (∀ p ∈ ps, (compileAstNodes ds p.2).isSome →
        ∃ n, computeVariantOrder svs 0 p.1.variants = .ok n) →
      ∃ r, compilePhase ds svs ps = .ok r
  | [], _ => ⟨([], []), rfl⟩
  | (c, raw) :: rest, h => by
    obtain ⟨r0, hr0⟩ := compilePhase_ok_of_forall ds svs rest
      (fun p hp hs => h p (by simp [hp]) hs)
    cases r0 with
    | mk es0 inv0 =>
      unfold compilePhase
      cases hc : compileAstNodes ds raw with
      | none =>
        rw [hr0]
        exact ⟨(es0, raw :: inv0), rfl⟩
      | some r =>
        cases r with
        | mk node ps2 =>
          have hsome : (compileAstNodes ds ((c, raw) : Candidate × String).2).isSome := by
            simp [hc]
          obtain ⟨n, hn⟩ := h (c, raw) (by simp) hsome
          rw [hn, hr0]
          exact ⟨((node, ⟨ps2, n, raw⟩) :: es0, inv0), rfl⟩

theorem compileCandidates_ok_elim (ds : DesignSystem) (raws : List String)
    (out : CompileOutput) (h : compileCandidates ds raws = .ok out) :
    ∃ es cinv,
      compilePhase ds (sortedVariantList ds) (parsedPairs ds raws) = .ok (es, cinv) ∧
      out.nodeSorting = es ∧
      out.astNodes =
        (stableSort (fun a z => decide (cmpNodes a.2 z.2 ≤ 0)) es).map (fun e => e.1) ∧
      out.invalid = parseFailures ds raws ++ cinv := by
  unfold compileCandidates at h
  cases hcp : compilePhase ds (sortedVariantList ds) (parsedPairs ds raws) with
  | error e => rw [hcp] at h; cases h
  | ok r =>
    cases r with
    | mk es cinv =>
      rw [hcp] at h
      refine ⟨es, cinv, rfl, ?_, ?_, ?_⟩
      · rw [← Except.ok.inj h]
      · rw [← Except.ok.inj h]
      · rw [← Except.ok.inj h]

theorem sortedEntries_eq (ds : DesignSystem) (svs : List Variant)
    (raws1 raws2 : List String) (hperm : raws1.Perm raws2) :
    stableSort (fun a z => decide (cmpNodes a.2 z.2 ≤ 0))
      ((parsedPairs ds raws1).filterMap (pairEntry ds svs)) =
    stableSort (fun a z => decide (cmpNodes a.2 z.2 ≤ 0))
      ((parsedPairs ds raws2).filterMap (pairEntry ds svs)) := by
  have hes : ((parsedPairs ds raws1).filterMap (pairEntry ds svs)).Perm
      ((parsedPairs ds raws2).filterMap (pairEntry ds svs)) :=
    (hperm.filterMap _).filterMap _
  have hWF1 : ∀ x ∈ (parsedPairs ds raws1).filterMap (pairEntry ds svs), x.2.WF := by
    intro x hx
    obtain ⟨p, -, hpe⟩ := List.mem_filterMap.1 hx
    exact pairEntry_WF ds svs p x hpe
  have hWF2 : ∀ x ∈ (parsedPairs ds raws2).filterMap (pairEntry ds svs), x.2.WF := by
    intro x hx
    obtain ⟨p, -, hpe⟩ := List.mem_filterMap.1 hx
    exact pairEntry_WF ds svs p x hpe
  have htotal : ∀ (l : List (Rule × SortRec)), ∀ a ∈ l, ∀ b ∈ l,
      decide (cmpNodes a.2 b.2 ≤ 0) = true ∨ decide (cmpNodes b.2 a.2 ≤ 0) = true := by
    intro l a _ b _
    simp only [decide_eq_true_eq]
    exact cmpNodes_total a.2 b.2
  have htr : ∀ (l : List (Rule × SortRec)), (∀ x ∈ l, x.2.WF) →
      ∀ a ∈ l, ∀ b ∈ l, ∀ c ∈ l,
      decide (cmpNodes a.2 b.2 ≤ 0) = true → decide (cmpNodes b.2 c.2 ≤ 0) = true →
      decide (cmpNodes a.2 c.2 ≤ 0) = true := by
    intro l hWF a hal b hbl c hcl h1 h2
    simp only [decide_eq_true_eq] at h1 h2 ⊢
    exact cmpNodes_trans a.2 b.2 c.2 (hWF a hal) (hWF b hbl) (hWF c hcl) h1 h2
  have hs1 := pairwise_stableSort (fun a z => decide (cmpNodes a.2 z.2 ≤ 0))
    ((parsedPairs ds raws1).filterMap (pairEntry ds svs)) (htotal _) (htr _ hWF1)
  have hs2 := pairwise_stableSort (fun a z => decide (cmpNodes a.2 z.2 ≤ 0))
    ((parsedPairs ds raws2).filterMap (pairEntry ds svs)) (htotal _) (htr _ hWF2)
  refine eq_of_perm_of_pairwise_local _ _ _
    ((stableSort_perm _ _).trans (hes.trans (stableSort_perm _ _).symm)) hs1 hs2 ?_
  intro x hx y hy hxy hyx
  simp only [decide_eq_true_eq] at hxy hyx
  exact entry_antisymm ds svs raws1 raws2 x y
    ((mem_stableSort _ _ _).1 hx) ((mem_stableSort _ _ _).1 hy)
    (cmpNodes_antisymm_zero x.2 y.2 hxy hyx)

theorem entries_eq_rawEntry (ds : DesignSystem) (raws : List String) :
    (parsedPairs ds raws).filterMap (pairEntry ds (sortedVariantList ds)) =
      raws.filterMap (rawEntry ds) := by
  rw [parsedPairs, List.filterMap_filterMap]
  congr 1
  funext raw
  cases hp : ds.parseCandidate raw with
  | none => simp [rawEntry, hp]
  | some c => simp [rawEntry, hp]

theorem compileFailures_eq (ds : DesignSystem) (raws : List String) :
    ((parsedPairs ds raws).filter
        (fun p => (compileAstNodes ds p.2).isNone)).map (fun p => p.2) =
      (raws.filter (fun r => (ds.parseCandidate r).isSome)).filter
        (fun r => (compileAstNodes ds r).isNone) := by
  induction raws with
  | nil => rfl
  | cons raw rest ih =>
    simp only [parsedPairs] at ih ⊢
    rw [List.filterMap_cons]
    cases hp : ds.parseCandidate raw with
    | none =>
      simp only [Option.map_none']
      rw [List.filter_cons]
      simp [hp, ih]
    | some c =>
      simp only [Option.map_some']
      rw [List.filter_cons, List.filter_cons]
      by_cases hc : (compileAstNodes ds raw).isNone
      · simp [hp, hc, ih]
      · simp [hp, hc, ih]

theorem applyChildren_none_of_nonrule (reg : Registry) (root : String) (v : Variant) :
    ∀ (ns : List AstNode), (∃ n ∈ ns, n.isRule = false) →
      applyChildren reg root v ns = none
  | [], h => by simp at h
  | .decl p vl i :: rest, _ => rfl
  | .rule sel ns2 :: rest, h => by
    have hrest : ∃ n ∈ rest, n.isRule = false := by
      obtain ⟨n, hn, hnr⟩ := h
      rcases List.mem_cons.1 hn with hn | hn
      · rw [hn] at hnr
        simp [AstNode.isRule] at hnr
      · exact ⟨n, hn, hnr⟩
    have hr := applyChildren_none_of_nonrule reg root v rest hrest
    unfold applyChildren
    cases reg root ⟨sel, ns2⟩ v with
    | none => rfl
    | some r => simp [bind, hr]

/-! The claims. -/

/-- Claim C1: for every rule node and compound variant, `applyVariant` first
applies the inner variant to the isolated `@slot` placeholder and fails if
that fails; it fails if any immediate child of the populated placeholder is
not a rule; otherwise (when the compound's `applyFn` succeeds on every
child) the original rule's children are spliced into the first childless
rule of the placeholder subtree, descent stopping once the slot is filled,
and the rule's children become the placeholder's composed children. -/
theorem compound_variant_applies_inner_then_splices (reg : Registry) (root : String)
    (inner : Variant) (node : Rule) :
    (applyVariant reg ⟨"@slot", []⟩ inner = none →
      applyVariant reg node (.compound root inner) = none) ∧
    (∀ iso, applyVariant reg ⟨"@slot", []⟩ inner = some iso →
      ((∃ child ∈ iso.nodes, child.isRule = false) →
        applyVariant reg node (.compound root inner) = none) ∧
      (∀ cs, applyChildren reg root (.compound root inner) iso.nodes = some cs →
        applyVariant reg node (.compound root inner) =
          some ⟨node.selector, (spliceEmptySlot node.nodes cs).1⟩)) := by
  refine ⟨?_, ?_⟩
  · intro h
    simp [applyVariant, h]
  · intro iso hiso
    refine ⟨?_, ?_⟩
    · intro hnr
      have hac := applyChildren_none_of_nonrule reg root (.compound root inner) iso.nodes hnr
      simp [applyVariant, hiso, hac]
    · intro cs hcs
      simp [applyVariant, hiso, hcs]

theorem compound_variant_witness :
    applyVariant (fun root r _ => some ⟨root ++ " " ++ r.selector, r.nodes⟩)
        ⟨".x", [.decl "color" "red" false]⟩
        (.compound "group" (.arbitrary "&:hover")) =
      some ⟨".x", (spliceEmptySlot [.decl "color" "red" false]
        [.rule ("group" ++ " " ++ "&:hover") []]).1⟩ := by
  have h := (compound_variant_applies_inner_then_splices
    (fun root r _ => some ⟨root ++ " " ++ r.selector, r.nodes⟩)
    "group" (.arbitrary "&:hover") ⟨".x", [.decl "color" "red" false]⟩).2
    ⟨"@slot", [.rule "&:hover" []]⟩ rfl
  exact h.2 [.rule ("group" ++ " " ++ "&:hover") []] rfl

/-- Claim C2: the claim states the comparator compares the property-index
sequences elementwise from the first divergent position.  The code's own
comment says the same, but the while-loop guard `aProperties.length <
offset` is false at the initial offset `0`, so the loop never advances and
only position 0 is ever compared.  At the records below the sequences
diverge at position 1 with `1 < 2`, so the claim predicts a negative
comparison; the code instead falls through to the alphabetical key and
returns `1`. -/
theorem property_offset_loop_dead_eval :
    cmpNodes ⟨([0, 1], [1, 1]), 0, "b"⟩ ⟨([0, 2], [1, 1]), 0, "a"⟩ = 1 ∧
    offsetLoop [0, 1] [0, 2] 5 0 = 0 := by
  refine ⟨?_, offsetLoop_start_zero _ _ _⟩
  have h1 : lowestPropertyDelta [0, 1] [0, 2] 0 = none := by decide
  have h2 : countsDelta [1, 1] [1, 1] 0 2 = none := by
    simp [countsDelta, cdStep]
  have h3 : strCompare "b" "a" = 1 := by decide
  rw [cmpNodes_eq]
  simp [h1, h2, h3]

/-- Claim C3 (amended): a `--tw-sort` declaration whose value is found in
the property-order table records that single table index and terminates the
traversal immediately, so no later node affects the key; here stated for an
override that leads the forest, where the recorded key is exactly that
single index whatever follows.  (As originally stated the claim is false:
declarations processed before the override still contribute, see the
counterexample.) -/
theorem sort_override_records_single_index (order : List String) (v : String)
    (imp : Bool) (rest : List AstNode) (h : ¬tsIndexOf v order < 0) :
    getPropertySort order (.decl "--tw-sort" v imp :: rest) =
      ([(tsIndexOf v order).toNat], [1]) := by
  rw [getPropertySort]
  simp [gpsLoop, h, mapBump, stableSort, stableInsert]

theorem sort_override_counterexample :
    getPropertySort ["a", "b"]
        [.decl "a" "x" false, .decl "--tw-sort" "b" false] = ([0, 1], [1, 1]) ∧
    getPropertySort ["a", "b"]
        [.decl "a" "x" false, .decl "--tw-sort" "b" false] ≠ ([1], [1]) := by
  have h : getPropertySort ["a", "b"]
      [.decl "a" "x" false, .decl "--tw-sort" "b" false] = ([0, 1], [1, 1]) := by
    simp [getPropertySort, gpsLoop, tsIndexOf, mapBump, stableSort, stableInsert]
  refine ⟨h, ?_⟩
  rw [h]
  simp

theorem sort_override_witness :
    getPropertySort ["a", "b"]
        [.decl "--tw-sort" "b" false, .decl "a" "x" false] = ([1], [1]) := by
  have h := sort_override_records_single_index ["a", "b"] "b" false
    [.decl "a" "x" false] (by decide)
  have h2 : (tsIndexOf "b" ["a", "b"]).toNat = 1 := by decide
  rw [h2] at h
  exact h

/-- Claim C5: a candidate whose base-utility resolution produces no nodes
(the falsy `null`/`undefined` results) fails compilation with `null`; in
particular a first matching implementation returning the `null` no-match
sentinel invalidates the candidate, while one returning an empty node list
is a successful no-op match producing the empty list. -/
theorem base_utility_no_nodes_fails (ds : DesignSystem) (raw : String) (c : Candidate)
    (u : Utility) (rest : List Utility) :
    (ds.parseCandidate raw = some c → compileBaseUtility ds c = none →
      compileAstNodes ds raw = none) ∧
    (c.kind = u.kind → u.compileFn c = .nul → utilityLoop c (u :: rest) = none) ∧
    (c.kind = u.kind → u.compileFn c = .nodes [] → utilityLoop c (u :: rest) = some []) := by
  refine ⟨?_, ?_, ?_⟩
  · intro hp hb
    simp [compileAstNodes, hp, hb]
  · intro hk hc
    have hk2 : ¬c.kind ≠ u.kind := by simp [hk]
    simp [utilityLoop, hk2, hc]
  · intro hk hc
    have hk2 : ¬c.kind ≠ u.kind := by simp [hk]
    simp [utilityLoop, hk2, hc]

theorem base_utility_witness :
    compileAstNodes dsFour "a" = none ∧
    utilityLoop { kind := "static", root := "r" }
      [⟨"static", fun _ => .nul⟩] = none ∧
    utilityLoop { kind := "static", root := "r" }
      [⟨"static", fun _ => .nodes []⟩] = some [] := by
  refine ⟨?_, ?_, ?_⟩
  · exact (base_utility_no_nodes_fails dsFour "a" { kind := "static", root := "nope" }
      ⟨"static", fun _ => .nul⟩ []).1 rfl rfl
  · exact (base_utility_no_nodes_fails dsFour "r" { kind := "static", root := "r" }
      ⟨"static", fun _ => .nul⟩ []).2.1 rfl rfl
  · exact (base_utility_no_nodes_fails dsFour "r" { kind := "static", root := "r" }
      ⟨"static", fun _ => .nodes []⟩ []).2.2 rfl rfl

/-- Claim C7: the importance pass marks every declaration reachable without
passing through an `@at-root` rule as important, and leaves every
`@at-root` subtree exactly as it was, preserving all selectors, properties,
values and list structure. -/
theorem important_marks_outside_at_root (ast : List AstNode) :
    AllImportantOutside (applyImportant ast) ∧ AtRootPreserved ast (applyImportant ast) := by
  induction ast using applyImportant.induct with
  | case1 =>
    exact ⟨by simp [applyImportant, AllImportantOutside],
      by simp [applyImportant, AtRootPreserved]⟩
  | case2 p v imp rest ih =>
    have e1 : applyImportant (.decl p v imp :: rest) =
        .decl p v true :: applyImportant rest := by
      simp [applyImportant]
    rw [e1]
    constructor
    · simp [AllImportantOutside, ih.1]
    · simp [AtRootPreserved, ih.2]
  | case3 ns rest ih =>
    have e1 : applyImportant (.rule "@at-root" ns :: rest) =
        .rule "@at-root" ns :: applyImportant rest := by
      simp [applyImportant]
    rw [e1]
    constructor
    · simp [AllImportantOutside, ih.1]
    · simp [AtRootPreserved, ih.2]
  | case4 sel ns rest hne ih1 ih2 =>
    have e1 : applyImportant (.rule sel ns :: rest) =
        .rule sel (applyImportant ns) :: applyImportant rest := by
      simp [applyImportant, hne]
    rw [e1]
    constructor
    · simp [AllImportantOutside, ih1.1, ih2.1]
    · simp [AtRootPreserved, hne, ih1.2, ih2.2]

/-- Claim C8: when two records have different variant bit patterns, the
comparator is decided by the exact integer comparison of those patterns:
the smaller pattern sorts first.  The patterns are `Nat`s (arbitrary
precision, like the `BigInt`s in the source), so this holds for any number
of distinct variants. -/
theorem variant_priority_smaller_first (a z : SortRec) (h : a.variants ≠ z.variants) :
    (cmpNodes a z < 0 ↔ a.variants < z.variants) ∧
    (0 < cmpNodes a z ↔ z.variants < a.variants) := by
  have hv : (a.variants : Int) - z.variants ≠ 0 := by
    intro h0
    apply h
    omega
  rw [cmpNodes_eq, if_pos hv]
  constructor
  · constructor
    · intro hlt
      omega
    · intro hlt
      omega
  · constructor
    · intro hlt
      omega
    · intro hlt
      omega

theorem variant_priority_witness :
    ((2 : Nat) ^ 300 ≠ 2 ^ 300 + 1) ∧
    (cmpNodes ⟨([], []), 2 ^ 300, "x"⟩ ⟨([], []), 2 ^ 300 + 1, "y"⟩ < 0 ↔
      (2 : Nat) ^ 300 < 2 ^ 300 + 1) := by
  have hne : (2 : Nat) ^ 300 ≠ 2 ^ 300 + 1 := Nat.ne_of_lt (Nat.lt_succ_self _)
  exact ⟨hne, (variant_priority_smaller_first ⟨([], []), 2 ^ 300, "x"⟩
    ⟨([], []), 2 ^ 300 + 1, "y"⟩ hne).1⟩

/-- Claim C9: a successful application of an arbitrary or compound variant
changes only the rule's children: the rule's selector (and its kind, by
typing) is untouched by the engine itself. -/
theorem apply_variant_preserves_selector (reg : Registry) (node : Rule) (v : Variant)
    (node2 : Rule)
    (hkind : (∃ s, v = .arbitrary s) ∨ ∃ root inner, v = .compound root inner)
    (h : applyVariant reg node v = some node2) :
    node2.selector = node.selector := by
  rcases hkind with ⟨s, rfl⟩ | ⟨root, inner, rfl⟩
  · simp [applyVariant] at h
    rw [← h]
  · simp only [applyVariant] at h
    cases hiso : applyVariant reg ⟨"@slot", []⟩ inner with
    | none => rw [hiso] at h; cases h
    | some iso =>
      rw [hiso] at h
      simp only [Option.bind_some, bind, Option.bind] at h
      cases hcs : applyChildren reg root (.compound root inner) iso.nodes with
      | none => rw [hcs] at h; cases h
      | some cs =>
        rw [hcs] at h
        simp only [Option.pure_def, Option.some_inj] at h
        rw [← h]

theorem apply_variant_selector_witness :
    ∃ node2, applyVariant (fun _ r _ => some r) ⟨".x", []⟩ (.arbitrary "&:hover") =
        some node2 ∧ node2.selector = ".x" := by
  refine ⟨⟨".x", [.rule "&:hover" []]⟩, rfl, ?_⟩
  exact apply_variant_preserves_selector (fun _ r _ => some r) ⟨".x", []⟩
    (.arbitrary "&:hover") ⟨".x", [.rule "&:hover" []]⟩
    (Or.inl ⟨"&:hover", rfl⟩) rfl

/-- Claim C4 (amended): each raw candidate that fails to parse or to
compile is reported to `onInvalidCandidate` exactly once with exactly its
raw text and contributes no node; bad input never reaches the throwing
branch (a batch of only failing candidates compiles to an `ok` empty
output).  However the callbacks are not interleaved in global encounter
order: all parse failures are reported first in input order, then all
compile failures in input order. -/
theorem invalid_callbacks_two_phase (ds : DesignSystem) (raws : List String) :
    (∀ out, compileCandidates ds raws = .ok out →
      out.invalid =
        raws.filter (fun r => (ds.parseCandidate r).isNone) ++
          (raws.filter (fun r => (ds.parseCandidate r).isSome)).filter
            (fun r => (compileAstNodes ds r).isNone) ∧
      out.nodeSorting = raws.filterMap (rawEntry ds)) ∧
    ((∀ r ∈ raws, (ds.parseCandidate r).isNone ∨ (compileAstNodes ds r).isNone) →
      ∃ out, compileCandidates ds raws = .ok out ∧ out.astNodes = []) := by
  constructor
  · intro out h
    obtain ⟨es, cinv, hcp, hns, han, hinv⟩ := compileCandidates_ok_elim ds raws out h
    obtain ⟨hes, hcinv⟩ := compilePhase_ok_parts ds _ _ es cinv hcp
    constructor
    · rw [hinv, hcinv, compileFailures_eq]
      rfl
    · rw [hns, hes, entries_eq_rawEntry]
  · intro hbad
    have hforall : ∀ p ∈ parsedPairs ds raws, (compileAstNodes ds p.2).isSome →
        ∃ n, computeVariantOrder (sortedVariantList ds) 0 p.1.variants = .ok n := by
      intro p hp hs
      obtain ⟨hmem, hparse⟩ := mem_parsedPairs ds raws p hp
      rcases hbad p.2 hmem with hb | hb
      · rw [hparse] at hb
        simp at hb
      · rw [Option.isSome_iff_exists] at hs
        obtain ⟨x, hx⟩ := hs
        rw [hx] at hb
        simp at hb
    obtain ⟨r, hr⟩ := compilePhase_ok_of_forall ds (sortedVariantList ds)
      (parsedPairs ds raws) hforall
    cases r with
    | mk es cinv =>
      have hcc : compileCandidates ds raws =
          .ok ⟨(stableSort (fun a z => decide (cmpNodes a.2 z.2 ≤ 0)) es).map (fun e => e.1),
            es, parseFailures ds raws ++ cinv⟩ := by
        unfold compileCandidates
        rw [hr]
      obtain ⟨hes, -⟩ := compilePhase_ok_parts ds _ _ es cinv hr
      have hes_nil : es = [] := by
        rw [hes, List.filterMap_eq_nil_iff]
        intro p hp
        obtain ⟨hmem, hparse⟩ := mem_parsedPairs ds raws p hp
        rcases hbad p.2 hmem with hb | hb
        · rw [hparse] at hb
          simp at hb
        · unfold pairEntry
          rw [Option.isNone_iff_eq_none] at hb
          rw [hb]
      refine ⟨_, hcc, ?_⟩
      show (stableSort (fun a z => decide (cmpNodes a.2 z.2 ≤ 0)) es).map (fun e => e.1) = []
      rw [hes_nil]
      rfl

theorem invalid_callbacks_counterexample :
    compileCandidates dsFour ["a", "b"] = .ok ⟨[], [], ["b", "a"]⟩ ∧
    (["b", "a"] : List String) ≠ ["a", "b"] := by
  refine ⟨rfl, ?_⟩
  simp

theorem invalid_callbacks_witness :
    ∃ out, compileCandidates dsFour ["a", "b"] = .ok out ∧ out.astNodes = [] := by
  refine (invalid_callbacks_two_phase dsFour ["a", "b"]).2 ?_
  intro r hr
  rcases List.mem_cons.1 hr with rfl | hr
  · exact Or.inr rfl
  · rcases List.mem_cons.1 hr with rfl | hr
    · exact Or.inl rfl
    · simp at hr

/-- Claim C6: the final ordered node output is insensitive to permutations
of the input candidate batch.  In this value-level model two entries tied
on all five comparator keys have equal raw candidate texts and hence are
the very same entry, so the claim's tie proviso is vacuous and the sorted
outputs of two permuted batches are equal outright; the unsorted sorting
map is correspondingly permuted. -/
theorem output_order_insensitive (ds : DesignSystem) (raws1 raws2 : List String)
    (o1 o2 : CompileOutput) (hperm : raws1.Perm raws2)
    (h1 : compileCandidates ds raws1 = .ok o1)
    (h2 : compileCandidates ds raws2 = .ok o2) :
    o1.astNodes = o2.astNodes ∧ o1.nodeSorting.Perm o2.nodeSorting := by
  obtain ⟨es1, cinv1, hcp1, hns1, han1, -⟩ := compileCandidates_ok_elim ds raws1 o1 h1
  obtain ⟨es2, cinv2, hcp2, hns2, han2, -⟩ := compileCandidates_ok_elim ds raws2 o2 h2
  obtain ⟨hes1, -⟩ := compilePhase_ok_parts ds _ _ es1 cinv1 hcp1
  obtain ⟨hes2, -⟩ := compilePhase_ok_parts ds _ _ es2 cinv2 hcp2
  have hsort := sortedEntries_eq ds (sortedVariantList ds) raws1 raws2 hperm
  constructor
  · rw [han1, han2, hes1, hes2, hsort]
  · rw [hns1, hns2, hes1, hes2]
    exact (hperm.filterMap _).filterMap _

theorem output_order_witness :
    ∃ o1 o2, compileCandidates dsMain ["u", "x"] = .ok o1 ∧
      compileCandidates dsMain ["x", "u"] = .ok o2 ∧
      o1.astNodes = o2.astNodes ∧ o1.nodeSorting.Perm o2.nodeSorting := by
  have hpp1 : ∀ p ∈ parsedPairs dsMain ["u", "x"], (compileAstNodes dsMain p.2).isSome →
      ∃ n, computeVariantOrder (sortedVariantList dsMain) 0 p.1.variants = .ok n := by
    intro p hp _
    have hpp : parsedPairs dsMain ["u", "x"] =
        [({ kind := "static", root := "u" }, "u")] := rfl
    rw [hpp] at hp
    rcases List.mem_cons.1 hp with rfl | hp
    · exact ⟨0, rfl⟩
    · simp at hp
  have hpp2 : ∀ p ∈ parsedPairs dsMain ["x", "u"], (compileAstNodes dsMain p.2).isSome →
      ∃ n, computeVariantOrder (sortedVariantList dsMain) 0 p.1.variants = .ok n := by
    intro p hp _
    have hpp : parsedPairs dsMain ["x", "u"] =
        [({ kind := "static", root := "u" }, "u")] := rfl
    rw [hpp] at hp
    rcases List.mem_cons.1 hp with rfl | hp
    · exact ⟨0, rfl⟩
    · simp at hp
  obtain ⟨r1, hr1⟩ := compilePhase_ok_of_forall dsMain (sortedVariantList dsMain)
    (parsedPairs dsMain ["u", "x"]) hpp1
  obtain ⟨r2, hr2⟩ := compilePhase_ok_of_forall dsMain (sortedVariantList dsMain)
    (parsedPairs dsMain ["x", "u"]) hpp2
  cases r1 with
  | mk es1 cinv1 =>
    cases r2 with
    | mk es2 cinv2 =>
      have hcc1 : compileCandidates dsMain ["u", "x"] =
          .ok ⟨(stableSort (fun a z => decide (cmpNodes a.2 z.2 ≤ 0)) es1).map (fun e => e.1),
            es1, parseFailures dsMain ["u", "x"] ++ cinv1⟩ := by
        unfold compileCandidates
        rw [hr1]
      have hcc2 : compileCandidates dsMain ["x", "u"] =
          .ok ⟨(stableSort (fun a z => decide (cmpNodes a.2 z.2 ≤ 0)) es2).map (fun e => e.1),
            es2, parseFailures dsMain ["x", "u"] ++ cinv2⟩ := by
        unfold compileCandidates
        rw [hr2]
      have hconc := output_order_insensitive dsMain ["u", "x"] ["x", "u"] _ _
        (List.Perm.swap "x" "u" []) hcc1 hcc2
      exact ⟨_, _, hcc1, hcc2, hconc.1, hconc.2⟩

/-- Claim C10: when every variant of every successfully compiled candidate
occurs in the sorted used-variant list, the `indexOf` lookup is nonnegative
for each of them, so the BigInt left shift is well-defined and the
throwing branch modelled by the `Except` error is unreachable:
`compileCandidates` returns `ok`. -/
theorem variant_index_nonneg_no_throw (ds : DesignSystem) (raws : List String)
    (h : ∀ raw ∈ raws, ∀ c, ds.parseCandidate raw = some c →
      compileAstNodes ds raw ≠ none → ∀ v ∈ c.variants, v ∈ sortedVariantList ds) :
    (∀ v ∈ sortedVariantList ds, 0 ≤ tsIndexOf v (sortedVariantList ds)) ∧
    ∃ out, compileCandidates ds raws = .ok out := by
  constructor
  · intro v hv
    exact tsIndexOf_nonneg v (sortedVariantList ds) hv
  · have hforall : ∀ p ∈ parsedPairs ds raws, (compileAstNodes ds p.2).isSome →
        ∃ n, computeVariantOrder (sortedVariantList ds) 0 p.1.variants = .ok n := by
      intro p hp hs
      obtain ⟨hmem, hparse⟩ := mem_parsedPairs ds raws p hp
      have hne : compileAstNodes ds p.2 ≠ none := by
        rw [Option.isSome_iff_exists] at hs
        obtain ⟨x, hx⟩ := hs
        rw [hx]
        simp
      exact computeVariantOrder_ok (sortedVariantList ds) p.1.variants
        (fun v hv => h p.2 hmem p.1 hparse hne v hv) 0
    obtain ⟨r, hr⟩ := compilePhase_ok_of_forall ds (sortedVariantList ds)
      (parsedPairs ds raws) hforall
    cases r with
    | mk es cinv =>
      refine ⟨⟨(stableSort (fun a z => decide (cmpNodes a.2 z.2 ≤ 0)) es).map (fun e => e.1),
        es, parseFailures ds raws ++ cinv⟩, ?_⟩
      unfold compileCandidates
      rw [hr]

theorem variant_index_witness :
    (∀ v ∈ sortedVariantList dsMain, 0 ≤ tsIndexOf v (sortedVariantList dsMain)) ∧
    ∃ out, compileCandidates dsMain ["hover-u"] = .ok out := by
  refine variant_index_nonneg_no_throw dsMain ["hover-u"] ?_
  intro raw hraw c hc hne v hv
  rcases List.mem_cons.1 hraw with rfl | hraw
  · have hp : dsMain.parseCandidate "hover-u" =
        some { kind := "static", root := "u", variants := [.static "hover"] } := rfl
    rw [hp] at hc
    have hceq := Option.some.inj hc
    rw [← hceq] at hv
    simp only [] at hv
    have hsvs : sortedVariantList dsMain = [.static "hover"] := rfl
    rw [hsvs]
    simpa using hv
  · simp at hraw

end Tailwind
